import Mathlib

/-!
Verification development for the zlang frontend (src/main.cpp):
lexer (`gettoken`), recursive-descent parser with precedence climbing,
prototype/definition/extern productions, and the top-level driver loop
with its one-token error recovery.  The lexer's persistent `LastChar`
is threaded explicitly (`none` models EOF); the parser's `CurTok` is the
head of the remaining token list; numeric values are modelled as `Rat`.
-/

namespace Zlang

/-- C `isspace` on the characters a session can see. -/
def isSpaceC (c : Char) : Bool :=
  c = ' ' || c = '\t' || c = '\n' || c = '\r' || c = '\x0b' || c = '\x0c'

/-- C `isalpha`. -/
def isAlphaC (c : Char) : Bool :=
  ('a' ≤ c && c ≤ 'z') || ('A' ≤ c && c ≤ 'Z')

/-- C `isdigit`. -/
def isDigitC (c : Char) : Bool := '0' ≤ c && c ≤ '9'

/-- C `isalnum`. -/
def isAlnumC (c : Char) : Bool := isAlphaC c || isDigitC c

/-- The token type returned by `gettoken` (enum Token in main.cpp), with the
`IdentifierStr` / `NumVal` side channels carried on the token itself.
`tok_externKw` renders the source's keyword token for the external-declaration
keyword; `sym c` is a plain character returned verbatim (ASCII value). -/
inductive Tok where
  | tok_eof
  | tok_def
  | tok_externKw
  | tok_identifier (name : String)
  | tok_number (val : Rat)
  | tok_if
  | tok_then
  | tok_else
  | tok_for
  | tok_in
  | sym (c : Char)
deriving DecidableEq, Repr

/-- Value of a digit string read most-significant first. -/
def digitsVal (ds : List Char) : Nat :=
  ds.foldl (fun a c => 10 * a + (c.toNat - Char.toNat '0')) 0

/-- The value `strtod` returns on the strings the lexer feeds it (nonempty
strings over digits and dots): an integer part, then an optional fractional
part, conversion stopping at a second dot. -/
def strtodQ (s : List Char) : Rat :=
  let intPart := s.takeWhile isDigitC
  let rest := s.dropWhile isDigitC
  match rest with
  | '.' :: rest2 =>
      let fracPart := rest2.takeWhile isDigitC
      (digitsVal intPart : Rat) + (digitsVal fracPart : Rat) / ((10 : Rat) ^ fracPart.length)
  | _ => (digitsVal intPart : Rat)

/-- `while (isspace(LastChar)) LastChar = getchar();` — `none` is EOF and is
not a space, so it exits the loop. -/
def skipSpaces : Option Char → List Char → Option Char × List Char
  | some c, input =>
      if isSpaceC c then
        match input with
        | [] => (none, [])
        | d :: rest => skipSpaces (some d) rest
      else (some c, input)
  | none, input => (none, input)

/-- Identifier tail: `while (isalnum(LastChar = getchar())) IdentifierStr += LastChar;` -/
def readIdent (acc : String) : List Char → String × Option Char × List Char
  | [] => (acc, none, [])
  | d :: rest => if isAlnumC d then readIdent (acc.push d) rest else (acc, some d, rest)

/-- Number tail: the do/while loop collecting digits and dots into `NumStr`
(the leading character is already in `acc`). -/
def readNum (acc : List Char) : List Char → List Char × Option Char × List Char
  | [] => (acc, none, [])
  | d :: rest => if isDigitC d || d = '.' then readNum (acc ++ [d]) rest else (acc, some d, rest)

/-- Comment skip: `do { LastChar = getchar(); } while (LastChar != EOF && LastChar != CR && LastChar != LF);` -/
def skipComment : List Char → Option Char × List Char
  | [] => (none, [])
  | d :: rest => if d = '\n' || d = '\r' then (some d, rest) else skipComment rest

/-- Keyword classification of a completed identifier (case-sensitive). -/
def keywordOrIdent (s : String) : Tok :=
  if s = "def" then .tok_def
  else if s = "extern" then .tok_externKw
  else if s = "if" then .tok_if
  else if s = "then" then .tok_then
  else if s = "else" then .tok_else
  else if s = "for" then .tok_for
  else if s = "in" then .tok_in
  else .tok_identifier s

/-- The body of the lexer `gettoken` from main.cpp, made structurally
recursive on a fuel argument (the self-call in the comment branch consumes at
least one input character, so fuel `input.length + 1` in the wrapper below
never reaches the `0` case).  `last` is the persistent `LastChar` (`none`
models EOF), `input` the remaining character stream; the result is the token
together with the new `(LastChar, input)` state.  The source tests
end-of-file after the comment branch, but EOF fails the alpha / digit / `#`
tests, so dispatching on it first is behaviour-identical. -/
def gettokenF : Nat → Option Char → List Char → Tok × Option Char × List Char
  | 0, _, input => (.tok_eof, none, input)
  | fuel+1, last, input =>
    let s := skipSpaces last input
    match s.1 with
    | none => (.tok_eof, none, s.2)
    | some c =>
      if isAlphaC c then
        let r := readIdent (String.singleton c) s.2
        (keywordOrIdent r.1, r.2.1, r.2.2)
      else if isDigitC c || c = '.' then
        let r := readNum [c] s.2
        (.tok_number (strtodQ r.1), r.2.1, r.2.2)
      else if c = '#' then
        let sc := skipComment s.2
        match sc.1 with
        | some c2 => gettokenF fuel (some c2) sc.2
        | none => (.tok_eof, none, sc.2)
      else
        match s.2 with
        | [] => (.sym c, none, [])
        | d :: rest => (.sym c, some d, rest)

/-- One call of the lexer on a session state. -/
def gettoken (last : Option Char) (input : List Char) : Tok × Option Char × List Char :=
  gettokenF (input.length + 1) last input

/-- Repeated calls of `gettoken` until it reports end of input. -/
def tokenizeAux : Nat → Option Char → List Char → List Tok
  | 0, _, _ => []
  | fuel+1, l, i =>
    match gettoken l i with
    | (t, l2, i2) => if t = .tok_eof then [] else t :: tokenizeAux fuel l2 i2

/-- Token stream of a whole input string (the initial `LastChar` is a space). -/
def tokenize (s : String) : List Tok := tokenizeAux (s.length + 2) (some ' ') s.data

example : tokenize "1 + 2 * 3" =
    [.tok_number 1, .sym '+', .tok_number 2, .sym '*', .tok_number 3] := by decide

example : tokenize ") def foo() 1" =
    [.sym ')', .tok_def, .tok_identifier "foo", .sym '(', .sym ')', .tok_number 1] := by decide

/-! ## The AST model (the ExprAST class hierarchy of main.cpp) -/

/-- Expression nodes. `ForExprAST`'s step is an `Option`, matching the
possibly-null `Step` pointer of the source. -/
inductive ExprAST where
  | NumberExprAST (val : Rat)
  | VariableExprAST (name : String)
  | BinaryExprAST (op : Char) (lhs rhs : ExprAST)
  | CallExprAST (callee : String) (args : List ExprAST)
  | IfExprAST (cond thenE elseE : ExprAST)
  | ForExprAST (varName : String) (startE endE : ExprAST) (step : Option ExprAST)
      (body : ExprAST)

/-- `PrototypeAST`: a function name and its parameter names. -/
structure PrototypeAST where
  name : String
  args : List String
deriving DecidableEq, Repr

/-- `FunctionAST`: a prototype plus a body expression. -/
structure FunctionAST where
  proto : PrototypeAST
  body : ExprAST

/-! ## The precedence table

`BinopPrecedence` is a `std::map<char, int>`, modelled as an association
list.  `GetTokPrecedence` reads it through `operator[]`, which
value-initialises a missing key to `0`; the stateful model below mirrors
that.  The parser's behaviour depends only on which characters have positive
precedence, which that insertion never changes, so the parsing functions use
the pure lookup `GetTokPrecedencePure` over the table `InstallBinop` builds. -/

/-- Association-list lookup (the contents of the `std::map` as a partial
function from keys to values). -/
def mapFind? : List (Char × Int) → Char → Option Int
  | [], _ => none
  | (k, v) :: rest, c => if k = c then some v else mapFind? rest c

/-- `std::map::operator[]`: return the mapped value, value-initialising a
missing key to `0` (which mutates the map). -/
def mapIndex (m : List (Char × Int)) (c : Char) : Int × List (Char × Int) :=
  match mapFind? m c with
  | some v => (v, m)
  | none => (0, m ++ [(c, 0)])

/-- The table `InstallBinop` builds at session start:
`<` 10, `>` 10, `+` 20, `-` 20, `*` 40, `/` 40. -/
def InstallBinop : List (Char × Int) :=
  [('<', 10), ('>', 10), ('+', 20), ('-', 20), ('*', 40), ('/', 40)]

/-- C `isascii` on the character a `sym` token carries. -/
def isasciiC (c : Char) : Bool := c.toNat ≤ 127

/-- `GetTokPrecedence` with the map state threaded: `-1` for non-symbol
tokens (negative token codes fail `isascii`), for non-ASCII characters and
for characters without positive precedence; `operator[]` may insert a
zero entry for a missing ASCII key. -/
def GetTokPrecedenceS (m : List (Char × Int)) (t : Tok) : Int × List (Char × Int) :=
  match t with
  | .sym c =>
      if isasciiC c then
        let (p, m2) := mapIndex m c
        (if p ≤ 0 then -1 else p, m2)
      else (-1, m)
  | _ => (-1, m)

/-- `GetTokPrecedence` as a pure function of the installed table (the value
`GetTokPrecedenceS` returns, on any map that agrees with `InstallBinop` on
positive entries). -/
def GetTokPrecedencePure (t : Tok) : Int :=
  match t with
  | .sym c =>
      if isasciiC c then
        let p := (mapFind? InstallBinop c).getD 0
        if p ≤ 0 then -1 else p
      else -1
  | _ => -1

/-! ## The parser

Parser state is the remaining token list; `CurTok` is its head (`tok_eof`
past the end, matching the lexer's sticky EOF).  Each function returns the
produced node (`none` = the source's `nullptr`), the remaining tokens, and
the `LogError` diagnostics it printed, in order. -/

/-- `CurTok`: the head of the remaining stream, `tok_eof` past the end. -/
def curTok (ts : List Tok) : Tok := ts.headD .tok_eof

/-- `getNextToken`: drop the current token. -/
def advance (ts : List Tok) : List Tok := ts.tail

/-- Result of one parsing function: produced node (`none` = `nullptr`),
remaining tokens, and the `LogError` messages emitted. -/
structure ParseResult (α : Type) where
  val : Option α
  rem : List Tok
  errs : List String

/-- The character of the current token when it is a symbol (used for
`int BinOp = CurTok;`, which is only executed when the current token has
positive precedence and hence is a symbol; the `' '` default is unreachable
there). -/
def curTokOp (ts : List Tok) : Char :=
  match curTok ts with
  | .sym c => c
  | _ => ' '

/-- `ParseNumberExpr`: consume the current number token (only called with
`CurTok = tok_number`; `NumVal` is carried on the token). -/
def ParseNumberExpr (ts : List Tok) : ParseResult ExprAST :=
  match curTok ts with
  | .tok_number v => ⟨some (.NumberExprAST v), advance ts, []⟩
  | _ => ⟨none, ts, []⟩

mutual

/-- `ParseExpression`: a primary followed by the binary-operator chain. -/
def ParseExpression : Nat → List Tok → ParseResult ExprAST
  | 0, ts => ⟨none, ts, []⟩
  | fuel+1, ts =>
    let r := ParsePrimary fuel ts
    match r.val with
    | none => ⟨none, r.rem, r.errs⟩
    | some lhs =>
      let r2 := ParseBinOpRHS fuel 0 lhs r.rem
      ⟨r2.val, r2.rem, r.errs ++ r2.errs⟩

/-- `ParseBinOpRHS`: the precedence-climbing loop.  Loop iterations are the
recursive calls at the same `exprPrec`; the climb into a higher-precedence
right operand is the call at `tokPrec + 1`. -/
def ParseBinOpRHS : Nat → Int → ExprAST → List Tok → ParseResult ExprAST
  | 0, _, _, ts => ⟨none, ts, []⟩
  | fuel+1, exprPrec, lhs, ts =>
    let tokPrec := GetTokPrecedencePure (curTok ts)
    if tokPrec < exprPrec then ⟨some lhs, ts, []⟩
    else
      let binOp := curTokOp ts
      let r := ParsePrimary fuel (advance ts)
      match r.val with
      | none => ⟨none, r.rem, r.errs⟩
      | some rhs =>
        let nextPrec := GetTokPrecedencePure (curTok r.rem)
        if tokPrec < nextPrec then
          let r2 := ParseBinOpRHS fuel (tokPrec + 1) rhs r.rem
          match r2.val with
          | none => ⟨none, r2.rem, r.errs ++ r2.errs⟩
          | some rhs2 =>
              ParseBinOpRHS fuel exprPrec (.BinaryExprAST binOp lhs rhs2) r2.rem
        else
          ParseBinOpRHS fuel exprPrec (.BinaryExprAST binOp lhs rhs) r.rem

/-- `ParsePrimary`: dispatch on the current token. -/
def ParsePrimary : Nat → List Tok → ParseResult ExprAST
  | 0, ts => ⟨none, ts, []⟩
  | fuel+1, ts =>
    match curTok ts with
    | .tok_identifier _ => ParseIdentifierExpr fuel ts
    | .tok_number _ => ParseNumberExpr ts
    | .tok_if => ParseIfExpr fuel ts
    | .tok_for => ParseForExpr fuel ts
    | .sym c =>
        if c = '(' then ParseParenExpr fuel ts
        else ⟨none, ts, ["unknown token when expecting an expression"]⟩
    | _ => ⟨none, ts, ["unknown token when expecting an expression"]⟩

/-- `ParseParenExpr`: `'(' expression ')'`; returns the inner node itself. -/
def ParseParenExpr : Nat → List Tok → ParseResult ExprAST
  | 0, ts => ⟨none, ts, []⟩
  | fuel+1, ts =>
    let r := ParseExpression fuel (advance ts)
    match r.val with
    | none => ⟨none, r.rem, r.errs⟩
    | some v =>
      if curTok r.rem = .sym ')' then ⟨some v, advance r.rem, r.errs⟩
      else ⟨none, r.rem, r.errs ++ ["expected ')'"]⟩

/-- `ParseIdentifierExpr`: a variable reference, or a call when the
identifier is followed by `(`. -/
def ParseIdentifierExpr : Nat → List Tok → ParseResult ExprAST
  | 0, ts => ⟨none, ts, []⟩
  | fuel+1, ts =>
    match curTok ts with
    | .tok_identifier idName =>
      let ts1 := advance ts
      if curTok ts1 = .sym '(' then
        let ts2 := advance ts1
        if curTok ts2 = .sym ')' then
          ⟨some (.CallExprAST idName []), advance ts2, []⟩
        else ParseCallArgs fuel idName [] ts2
      else ⟨some (.VariableExprAST idName), ts1, []⟩
    | _ => ⟨none, ts, []⟩

/-- The `while (true)` argument loop inside `ParseIdentifierExpr`. -/
def ParseCallArgs : Nat → String → List ExprAST → List Tok → ParseResult ExprAST
  | 0, _, _, ts => ⟨none, ts, []⟩
  | fuel+1, idName, args, ts =>
    let r := ParseExpression fuel ts
    match r.val with
    | none => ⟨none, r.rem, r.errs⟩
    | some arg =>
      let args2 := args ++ [arg]
      if curTok r.rem = .sym ')' then
        ⟨some (.CallExprAST idName args2), advance r.rem, r.errs⟩
      else if curTok r.rem = .sym ',' then
        let r2 := ParseCallArgs fuel idName args2 (advance r.rem)
        ⟨r2.val, r2.rem, r.errs ++ r2.errs⟩
      else ⟨none, r.rem, r.errs ++ ["Expected ')' or ',' in argument list"]⟩

/-- `ParseIfExpr`: `if` expr `then` expr `else` expr. -/
def ParseIfExpr : Nat → List Tok → ParseResult ExprAST
  | 0, ts => ⟨none, ts, []⟩
  | fuel+1, ts =>
    let r := ParseExpression fuel (advance ts)
    match r.val with
    | none => ⟨none, r.rem, r.errs⟩
    | some cond =>
      if curTok r.rem ≠ .tok_then then ⟨none, r.rem, r.errs ++ ["expected then"]⟩
      else
        let r2 := ParseExpression fuel (advance r.rem)
        match r2.val with
        | none => ⟨none, r2.rem, r.errs ++ r2.errs⟩
        | some thenE =>
          if curTok r2.rem ≠ .tok_else then
            ⟨none, r2.rem, r.errs ++ r2.errs ++ ["expected else"]⟩
          else
            let r3 := ParseExpression fuel (advance r2.rem)
            match r3.val with
            | none => ⟨none, r3.rem, r.errs ++ r2.errs ++ r3.errs⟩
            | some elseE =>
              ⟨some (.IfExprAST cond thenE elseE), r3.rem,
                r.errs ++ r2.errs ++ r3.errs⟩

/-- `ParseForExpr`: `for` id `=` expr `,` expr (`,` expr)? `in` expr; a
missing step is kept as `none`, never defaulted by the parser. -/
def ParseForExpr : Nat → List Tok → ParseResult ExprAST
  | 0, ts => ⟨none, ts, []⟩
  | fuel+1, ts =>
    let ts1 := advance ts
    match curTok ts1 with
    | .tok_identifier idName =>
      let ts2 := advance ts1
      if curTok ts2 ≠ .sym '=' then ⟨none, ts2, ["expected '=' after for"]⟩
      else
        let r := ParseExpression fuel (advance ts2)
        match r.val with
        | none => ⟨none, r.rem, r.errs⟩
        | some startE =>
          if curTok r.rem ≠ .sym ',' then
            ⟨none, r.rem, r.errs ++ ["expected ',' after for start value"]⟩
          else
            let r2 := ParseExpression fuel (advance r.rem)
            match r2.val with
            | none => ⟨none, r2.rem, r.errs ++ r2.errs⟩
            | some endE =>
              let stepR : ParseResult (Option ExprAST) :=
                if curTok r2.rem = .sym ',' then
                  let r3 := ParseExpression fuel (advance r2.rem)
                  match r3.val with
                  | none => ⟨none, r3.rem, r3.errs⟩
                  | some stepE => ⟨some (some stepE), r3.rem, r3.errs⟩
                else ⟨some none, r2.rem, []⟩
              match stepR.val with
              | none => ⟨none, stepR.rem, r.errs ++ r2.errs ++ stepR.errs⟩
              | some step =>
                if curTok stepR.rem ≠ .tok_in then
                  ⟨none, stepR.rem,
                    r.errs ++ r2.errs ++ stepR.errs ++ ["expected 'in' after for"]⟩
                else
                  let r4 := ParseExpression fuel (advance stepR.rem)
                  match r4.val with
                  | none => ⟨none, r4.rem, r.errs ++ r2.errs ++ stepR.errs ++ r4.errs⟩
                  | some body =>
                    ⟨some (.ForExprAST idName startE endE step body), r4.rem,
                      r.errs ++ r2.errs ++ stepR.errs ++ r4.errs⟩
    | _ => ⟨none, ts1, ["expected identifier after for"]⟩

end


example : ParseExpression 30 (tokenize "1 + 2 * 3") =
    ⟨some (.BinaryExprAST '+' (.NumberExprAST 1)
      (.BinaryExprAST '*' (.NumberExprAST 2) (.NumberExprAST 3))), [], []⟩ := rfl

/-! ## Prototypes, definitions, externs, top-level expressions -/

/-- The `while (getNextToken() == tok_identifier)` loop of `ParsePrototype`:
collect consecutive identifier tokens into `ArgNames`, in input order. -/
def ProtoArgs : List Tok → List String × List Tok
  | .tok_identifier a :: rest =>
      let (others, ts) := ProtoArgs rest
      (a :: others, ts)
  | ts => ([], ts)

/-- `ParsePrototype`: `id '(' id* ')'` (no separators between parameters). -/
def ParsePrototype (ts : List Tok) : ParseResult PrototypeAST :=
  match curTok ts with
  | .tok_identifier fnName =>
    let ts1 := advance ts
    if curTok ts1 = .sym '(' then
      let (argNames, ts2) := ProtoArgs (advance ts1)
      if curTok ts2 = .sym ')' then ⟨some ⟨fnName, argNames⟩, advance ts2, []⟩
      else ⟨none, ts2, ["Expected ')' in prototype"]⟩
    else ⟨none, ts1, ["Expected '(' in prototype"]⟩
  | _ => ⟨none, ts, ["Expected function name in prototype"]⟩

/-- `ParseDefinition`: `def` prototype expression. -/
def ParseDefinition (fuel : Nat) (ts : List Tok) : ParseResult FunctionAST :=
  let r := ParsePrototype (advance ts)
  match r.val with
  | none => ⟨none, r.rem, r.errs⟩
  | some proto =>
    let r2 := ParseExpression fuel r.rem
    match r2.val with
    | none => ⟨none, r2.rem, r.errs ++ r2.errs⟩
    | some body => ⟨some ⟨proto, body⟩, r2.rem, r.errs ++ r2.errs⟩

/-- `ParseExtern` in the source: `extern` prototype. -/
def ParseExternDecl (ts : List Tok) : ParseResult PrototypeAST :=
  ParsePrototype (advance ts)

/-- `ParseTopLevelExpr`: wrap a bare expression in an anonymous
zero-parameter function named `__anon_expr`. -/
def ParseTopLevelExpr (fuel : Nat) (ts : List Tok) : ParseResult FunctionAST :=
  let r := ParseExpression fuel ts
  match r.val with
  | none => ⟨none, r.rem, r.errs⟩
  | some e => ⟨some ⟨⟨"__anon_expr", []⟩, e⟩, r.rem, r.errs⟩

/-! ## The top-level dispatcher (`MainLoop` and the `Handle*` functions)

An `Event` records what one session observes: a diagnostic line, or an AST
handed to the backend (`codegen` and the JIT are the out-of-scope backend;
an AST is handed over exactly when the parse returned a node). -/

/-- Observable driver events, in session order. -/
inductive Event where
  | errMsg (s : String)
  | emitDef (f : FunctionAST)
  | emitExternDecl (p : PrototypeAST)
  | emitTop (f : FunctionAST)

/-- `MainLoop`: dispatch on `CurTok`; `;` is consumed and produces nothing;
on a failed production the handler consumes exactly one token
(`getNextToken()` in the `else` branch) and the loop continues.  `fuel`
bounds the number of iterations, `pfuel` is the parser fuel. -/
def MainLoop : Nat → Nat → List Tok → List Event
  | 0, _, _ => []
  | fuel+1, pfuel, ts =>
    if curTok ts = .tok_eof then []
    else if curTok ts = .sym ';' then MainLoop fuel pfuel (advance ts)
    else if curTok ts = .tok_def then
      let r := ParseDefinition pfuel ts
      match r.val with
      | some fn => r.errs.map .errMsg ++ [.emitDef fn] ++ MainLoop fuel pfuel r.rem
      | none => r.errs.map .errMsg ++ MainLoop fuel pfuel (advance r.rem)
    else if curTok ts = .tok_externKw then
      let r := ParseExternDecl ts
      match r.val with
      | some p => r.errs.map .errMsg ++ [.emitExternDecl p] ++ MainLoop fuel pfuel r.rem
      | none => r.errs.map .errMsg ++ MainLoop fuel pfuel (advance r.rem)
    else
      let r := ParseTopLevelExpr pfuel ts
      match r.val with
      | some fn => r.errs.map .errMsg ++ [.emitTop fn] ++ MainLoop fuel pfuel r.rem
      | none => r.errs.map .errMsg ++ MainLoop fuel pfuel (advance r.rem)

/-! ## Supporting lemmas -/

/-- A completed identifier never classifies as the end-of-input token. -/
theorem keywordOrIdent_ne_eof (s : String) : keywordOrIdent s ≠ .tok_eof := by
  unfold keywordOrIdent
  split_ifs <;> simp

/-- The whitespace-skipping loop exits at once when `LastChar` is EOF. -/
theorem skipSpaces_none (i : List Char) : skipSpaces none i = (none, i) := by
  simp [skipSpaces]

/-- Whenever `gettokenF` reports end of input, the stored `LastChar` is EOF. -/
theorem gettokenF_eof_none :
    ∀ (fuel : Nat) (l : Option Char) (i : List Char),
      (gettokenF fuel l i).1 = .tok_eof → (gettokenF fuel l i).2.1 = none := by
  intro fuel
  induction fuel with
  | zero => intro l i _; rfl
  | succ f ih =>
    intro l i h
    simp only [gettokenF] at h ⊢
    rcases hs : skipSpaces l i with ⟨l1, inp⟩
    simp only [hs] at h ⊢
    cases l1 with
    | none => rfl
    | some c =>
      simp only at h ⊢
      by_cases ha : isAlphaC c
      · rcases hr : readIdent (String.singleton c) inp with ⟨name, l2, inp2⟩
        simp only [ha, if_true, hr] at h
        exact absurd h (keywordOrIdent_ne_eof name)
      · by_cases hd : (isDigitC c || c = '.') = true
        · rcases hn : readNum [c] inp with ⟨numStr, l2, inp2⟩
          simp [ha, hd, hn] at h
        · by_cases hh : c = '#'
          · rcases hc : skipComment inp with ⟨l2, inp2⟩
            simp only [ha, hd, hh, hc, Bool.false_eq_true, if_false, if_true,
              if_pos, if_neg] at h ⊢
            cases l2 with
            | none => rfl
            | some c2 => exact ih (some c2) inp2 h
          · cases inp with
            | nil => simp [ha, hd, hh] at h
            | cons d rest => simp [ha, hd, hh] at h

/-- The lexer at EOF: returns `tok_eof` and leaves its state unchanged. -/
theorem gettoken_at_eof (i : List Char) : gettoken none i = (.tok_eof, none, i) := by
  simp [gettoken, gettokenF, skipSpaces_none]

/-- The token returned by the `n`-th further call of `gettoken` after the
given session state (the 0-th call is the next one). -/
def gettokenIter : Nat → Option Char → List Char → Tok
  | 0, l, i => (gettoken l i).1
  | n+1, l, i => gettokenIter n (gettoken l i).2.1 (gettoken l i).2.2

theorem gettokenIter_none (n : Nat) (i : List Char) : gettokenIter n none i = .tok_eof := by
  induction n generalizing i with
  | zero => simp [gettokenIter, gettoken_at_eof]
  | succ m ih => simpa [gettokenIter, gettoken_at_eof] using ih i

/-! ## The claims -/

/-- C1: binary-operator chains are resolved by precedence climbing:
`"1 - 2 - 3"` associates to the left at equal precedence, and in
`"1 + 2 * 3"` the higher-precedence `*` binds tighter on the right. -/
theorem binop_chain_precedence_associativity :
    ParseExpression 30 (tokenize "1 - 2 - 3") =
      ⟨some (.BinaryExprAST '-'
          (.BinaryExprAST '-' (.NumberExprAST 1) (.NumberExprAST 2))
          (.NumberExprAST 3)), [], []⟩ ∧
    ParseExpression 30 (tokenize "1 + 2 * 3") =
      ⟨some (.BinaryExprAST '+' (.NumberExprAST 1)
          (.BinaryExprAST '*' (.NumberExprAST 2) (.NumberExprAST 3))), [], []⟩ :=
  ⟨rfl, rfl⟩

/-- C3: call arguments appear in the `Call` node in call-site order:
`"f(1, 2, 3)"` yields `Call "f" [1, 2, 3]` and `"f()"` yields
`Call "f" []` with zero arguments. -/
theorem call_arguments_in_order :
    ParseExpression 30 (tokenize "f(1, 2, 3)") =
      ⟨some (.CallExprAST "f"
          [.NumberExprAST 1, .NumberExprAST 2, .NumberExprAST 3]), [], []⟩ ∧
    ParseExpression 30 (tokenize "f()") =
      ⟨some (.CallExprAST "f" []), [], []⟩ :=
  ⟨rfl, rfl⟩

/-- C4: the parser preserves the absence of a for-loop step structurally:
`"for i = 1, 10 in body"` yields a `For` node with step `none` (not a
literal `1.0`), and `"for i = 1, 10, 2 in body"` yields step
`some (Number 2)`. -/
theorem for_step_structurally_optional :
    ParseExpression 30 (tokenize "for i = 1, 10 in body") =
      ⟨some (.ForExprAST "i" (.NumberExprAST 1) (.NumberExprAST 10) none
          (.VariableExprAST "body")), [], []⟩ ∧
    ParseExpression 30 (tokenize "for i = 1, 10, 2 in body") =
      ⟨some (.ForExprAST "i" (.NumberExprAST 1) (.NumberExprAST 10)
          (some (.NumberExprAST 2)) (.VariableExprAST "body")), [], []⟩ :=
  ⟨rfl, rfl⟩

/-- C7: a `#` comment is consumed through end-of-line without producing a
token, so `"# comment\n42"` lexes to the single token `42` and the driver
parses it as `Number 42` with no diagnostic. -/
theorem comment_skipped_without_token :
    tokenize "# comment\n42" = [.tok_number 42] ∧
    MainLoop 10 30 (tokenize "# comment\n42") =
      [.emitTop ⟨⟨"__anon_expr", []⟩, .NumberExprAST 42⟩] :=
  ⟨rfl, rfl⟩

/-- C5: end-of-input is permanently sticky: once a call of `gettoken`
returns `tok_eof`, every subsequent call on the same session state returns
`tok_eof`, however many further calls are made. -/
theorem eof_is_sticky (l : Option Char) (i : List Char)
    (h : (gettoken l i).1 = .tok_eof) :
    ∀ n, gettokenIter n (gettoken l i).2.1 (gettoken l i).2.2 = .tok_eof := by
  intro n
  have hnone : (gettoken l i).2.1 = none := gettokenF_eof_none _ l i h
  rw [hnone]
  exact gettokenIter_none n _

/-- C5 witness: a session whose input is exhausted reports `tok_eof` now and
on the two following calls. -/
theorem eof_is_sticky_witness :
    (gettoken (some ' ') []).1 = .tok_eof ∧
    gettokenIter 2 (gettoken (some ' ') []).2.1 (gettoken (some ' ') []).2.2 = .tok_eof :=
  ⟨rfl, eof_is_sticky (some ' ') [] rfl 2⟩

/-- Appending an entry to an association list does not change the value of a
key that is already bound. -/
theorem mapFind?_append_some (m : List (Char × Int)) (kv : Char × Int) (c : Char) (v : Int)
    (h : mapFind? m c = some v) : mapFind? (m ++ [kv]) c = some v := by
  induction m with
  | nil => simp [mapFind?] at h
  | cons p rest ih =>
    rcases p with ⟨k, w⟩
    simp only [mapFind?, List.cons_append] at h ⊢
    by_cases hk : k = c
    · simpa [hk] using h
    · rw [if_neg hk] at h ⊢
      exact ih h

/-- Appending an entry to an association list binds exactly the appended key
among previously unbound keys. -/
theorem mapFind?_append_none (m : List (Char × Int)) (k : Char) (v : Int) (c : Char)
    (h : mapFind? m c = none) :
    mapFind? (m ++ [(k, v)]) c = if k = c then some v else none := by
  induction m with
  | nil => simp [mapFind?]
  | cons p rest ih =>
    rcases p with ⟨k2, w⟩
    simp only [mapFind?, List.cons_append] at h ⊢
    by_cases hk : k2 = c
    · simp [hk] at h
    · rw [if_neg hk] at h ⊢
      exact ih h

/-- C6 counterexample: consulting the table via `GetTokPrecedence` at the
token `','` (which `std::map::operator[]` does not find) inserts a zero
entry, so the table's contents are changed by a lookup of an unlisted
character. -/
theorem precedence_table_lookup_mutates :
    mapFind? (GetTokPrecedenceS InstallBinop (.sym ',')).2 ',' ≠ mapFind? InstallBinop ',' := by
  decide

/-- C6 (amended): the table is initialized at session start with
`<`,`>` at 10, `+`,`-` at 20 and `*`,`/` at 40; a lookup during parsing
never changes an existing entry and never changes which characters have
positive precedence (so the precedence `GetTokPrecedence` reports always
equals the pure function of the installed table), although a lookup of an
unlisted ASCII character does insert an entry with value `0`. -/
theorem precedence_table_behaviour :
    (mapFind? InstallBinop '<' = some 10 ∧ mapFind? InstallBinop '>' = some 10 ∧
     mapFind? InstallBinop '+' = some 20 ∧ mapFind? InstallBinop '-' = some 20 ∧
     mapFind? InstallBinop '*' = some 40 ∧ mapFind? InstallBinop '/' = some 40) ∧
    (∀ m t c v, mapFind? m c = some v → mapFind? (GetTokPrecedenceS m t).2 c = some v) ∧
    (∀ m t c, 0 < (mapFind? (GetTokPrecedenceS m t).2 c).getD 0 ↔
        0 < (mapFind? m c).getD 0) ∧
    (∀ t, (GetTokPrecedenceS InstallBinop t).1 = GetTokPrecedencePure t) := by
  refine ⟨⟨by decide, by decide, by decide, by decide, by decide, by decide⟩, ?_, ?_, ?_⟩
  · intro m t c v h
    cases t <;> simp only [GetTokPrecedenceS] <;> try exact h
    case sym c2 =>
      by_cases hA : isasciiC c2
      · simp only [hA, if_true, mapIndex]
        cases hf : mapFind? m c2 with
        | some w => simpa using h
        | none => simpa using mapFind?_append_some m (c2, 0) c v h
      · simpa [hA] using h
  · intro m t c
    cases t <;> simp only [GetTokPrecedenceS] <;> try exact Iff.rfl
    case sym c2 =>
      by_cases hA : isasciiC c2
      · simp only [hA, if_true, mapIndex]
        cases hf : mapFind? m c2 with
        | some w => simp
        | none =>
          simp only
          cases hc : mapFind? m c with
          | some v => rw [mapFind?_append_some m (c2, 0) c v hc]
          | none =>
            rw [mapFind?_append_none m c2 0 c hc]
            by_cases he : c2 = c <;> simp [he, hc]
      · simp [hA]
  · intro t
    cases t <;> simp only [GetTokPrecedenceS, GetTokPrecedencePure]
    case sym c2 =>
      by_cases hA : isasciiC c2
      · simp only [hA, if_true, mapIndex]
        cases hf : mapFind? InstallBinop c2 with
        | some w => simp
        | none => simp
      · simp [hA]

/-- C6 witness: after the mutating lookup at `','`, the installed entry for
`'<'` still maps to 10. -/
theorem precedence_table_behaviour_witness :
    mapFind? (GetTokPrecedenceS InstallBinop (.sym ',')).2 '<' = some 10 :=
  precedence_table_behaviour.2.1 InstallBinop (.sym ',') '<' 10 (by decide)

/-- The parameter-collection loop of `ParsePrototype` takes exactly the
leading identifier tokens, in order. -/
theorem ProtoArgs_idents (names : List String) (rest : List Tok) :
    ProtoArgs (names.map .tok_identifier ++ .sym ')' :: rest) = (names, .sym ')' :: rest) := by
  induction names with
  | nil => rfl
  | cons a as ih => simp only [List.map_cons, List.cons_append, ProtoArgs, List.append_eq, ih]

/-- C8: a prototype is an identifier, `(`, zero or more identifiers with no
commas required between them, then `)`; the parameter names are recorded in
input order.  Concretely, `"f(a b c)"` yields `Prototype "f" ["a","b","c"]`. -/
theorem prototype_params_without_commas :
    (∀ (f : String) (names : List String) (rest : List Tok),
      ParsePrototype
          (.tok_identifier f :: .sym '(' :: (names.map .tok_identifier ++ .sym ')' :: rest)) =
        ⟨some ⟨f, names⟩, rest, []⟩) ∧
    ParsePrototype (tokenize "f(a b c)") = ⟨some ⟨"f", ["a", "b", "c"]⟩, [], []⟩ := by
  refine ⟨?_, rfl⟩
  intro f names rest
  simp [ParsePrototype, curTok, advance, ProtoArgs_idents]

/-- C2: when a top-level production fails, the dispatcher emits only that
production's diagnostics (no AST event), consumes exactly one token past the
state at which the production stopped, and loops; concretely, on
`") def foo() 1"` the stray `)` causes exactly one parse error, and the
following `def foo() 1` still becomes a `Function` with an empty parameter
list and body `Number 1`. -/
theorem failed_unit_recovery_one_token :
    (∀ (fuel pfuel : Nat) (ts : List Tok),
      curTok ts = .tok_def → (ParseDefinition pfuel ts).val = none →
      MainLoop (fuel+1) pfuel ts =
        (ParseDefinition pfuel ts).errs.map .errMsg ++
          MainLoop fuel pfuel (advance (ParseDefinition pfuel ts).rem)) ∧
    (∀ (fuel pfuel : Nat) (ts : List Tok),
      curTok ts = .tok_externKw → (ParseExternDecl ts).val = none →
      MainLoop (fuel+1) pfuel ts =
        (ParseExternDecl ts).errs.map .errMsg ++
          MainLoop fuel pfuel (advance (ParseExternDecl ts).rem)) ∧
    (∀ (fuel pfuel : Nat) (ts : List Tok),
      curTok ts ≠ .tok_eof → curTok ts ≠ .sym ';' → curTok ts ≠ .tok_def →
      curTok ts ≠ .tok_externKw → (ParseTopLevelExpr pfuel ts).val = none →
      MainLoop (fuel+1) pfuel ts =
        (ParseTopLevelExpr pfuel ts).errs.map .errMsg ++
          MainLoop fuel pfuel (advance (ParseTopLevelExpr pfuel ts).rem)) ∧
    MainLoop 10 30 (tokenize ") def foo() 1") =
      [.errMsg "unknown token when expecting an expression",
       .emitDef ⟨⟨"foo", []⟩, .NumberExprAST 1⟩] := by
  refine ⟨?_, ?_, ?_, rfl⟩
  · intro fuel pfuel ts hcur hfail
    simp [MainLoop, hcur, hfail]
  · intro fuel pfuel ts hcur hfail
    simp [MainLoop, hcur, hfail]
  · intro fuel pfuel ts h1 h2 h3 h4 hfail
    simp [MainLoop, h1, h2, h3, h4, hfail]

/-- C2 witness: the recovery equation applied to the concrete session
`") def foo() 1"`, whose first unit fails in expression position. -/
theorem failed_unit_recovery_one_token_witness :
    MainLoop 10 30 (tokenize ") def foo() 1") =
      (ParseTopLevelExpr 30 (tokenize ") def foo() 1")).errs.map .errMsg ++
        MainLoop 9 30 (advance (ParseTopLevelExpr 30 (tokenize ") def foo() 1")).rem) :=
  failed_unit_recovery_one_token.2.2.1 9 30 (tokenize ") def foo() 1")
    (by decide) (by decide) (by decide) (by decide) rfl

/-- C9: parentheses are transparent: if an expression parse yields `e` with a
closing `)` as the next token, then parsing the same tokens wrapped as
`( ... )` yields the very same node `e` — `ParseParenExpr` returns the inner
node, there is no parenthesis node variant. -/
theorem parentheses_are_transparent (fuel : Nat) (ts : List Tok) (e : ExprAST)
    (h : ParseExpression fuel ts = ⟨some e, [.sym ')'], []⟩) :
    ParseExpression (fuel + 3) (.sym '(' :: ts) = ⟨some e, [], []⟩ := by
  have hparen : ParseParenExpr (fuel + 1) (.sym '(' :: ts) = ⟨some e, [], []⟩ := by
    simp [ParseParenExpr, advance, h, curTok]
  have hprim : ParsePrimary (fuel + 2) (.sym '(' :: ts) = ⟨some e, [], []⟩ := by
    simp [ParsePrimary, curTok, hparen]
  simp [ParseExpression, hprim, ParseBinOpRHS, curTok, GetTokPrecedencePure]

/-- C9 witness: `(1*2)` parses to the same node as `1*2`. -/
theorem parentheses_are_transparent_witness :
    ParseExpression 23 (.sym '(' :: tokenize "1*2)") =
      ⟨some (.BinaryExprAST '*' (.NumberExprAST 1) (.NumberExprAST 2)), [], []⟩ :=
  parentheses_are_transparent 20 (tokenize "1*2)")
    (.BinaryExprAST '*' (.NumberExprAST 1) (.NumberExprAST 2)) rfl

/-! ## All binary operators come from the installed table (C10) -/

mutual

/-- Every `BinaryExprAST` in the tree carries one of the six installed
operator characters. -/
def opsOK : ExprAST → Bool
  | .NumberExprAST _ => true
  | .VariableExprAST _ => true
  | .BinaryExprAST op l r =>
      (op = '<' || op = '>' || op = '+' || op = '-' || op = '*' || op = '/') &&
        opsOK l && opsOK r
  | .CallExprAST _ args => opsOKList args
  | .IfExprAST c t e => opsOK c && opsOK t && opsOK e
  | .ForExprAST _ s e st b => opsOK s && opsOK e && opsOKOpt st && opsOK b

/-- `opsOK` on an optional step. -/
def opsOKOpt : Option ExprAST → Bool
  | none => true
  | some x => opsOK x

/-- `opsOK` on every element of a list. -/
def opsOKList : List ExprAST → Bool
  | [] => true
  | x :: xs => opsOK x && opsOKList xs

end

theorem opsOKList_append (xs ys : List ExprAST) :
    opsOKList (xs ++ ys) = (opsOKList xs && opsOKList ys) := by
  induction xs with
  | nil => simp [opsOKList]
  | cons x xs ih => simp [opsOKList, ih, Bool.and_assoc]

/-- A character with positive precedence in the installed table is one of
the six installed operators. -/
theorem mapFind?_InstallBinop_pos (c : Char)
    (h : 0 < (mapFind? InstallBinop c).getD 0) :
    c = '<' ∨ c = '>' ∨ c = '+' ∨ c = '-' ∨ c = '*' ∨ c = '/' := by
  by_cases h1 : c = '<'
  · exact Or.inl h1
  by_cases h2 : c = '>'
  · exact Or.inr (Or.inl h2)
  by_cases h3 : c = '+'
  · exact Or.inr (Or.inr (Or.inl h3))
  by_cases h4 : c = '-'
  · exact Or.inr (Or.inr (Or.inr (Or.inl h4)))
  by_cases h5 : c = '*'
  · exact Or.inr (Or.inr (Or.inr (Or.inr (Or.inl h5))))
  by_cases h6 : c = '/'
  · exact Or.inr (Or.inr (Or.inr (Or.inr (Or.inr h6))))
  exfalso
  have h1' : ¬('<' = c) := fun hh => h1 hh.symm
  have h2' : ¬('>' = c) := fun hh => h2 hh.symm
  have h3' : ¬('+' = c) := fun hh => h3 hh.symm
  have h4' : ¬('-' = c) := fun hh => h4 hh.symm
  have h5' : ¬('*' = c) := fun hh => h5 hh.symm
  have h6' : ¬('/' = c) := fun hh => h6 hh.symm
  simp [InstallBinop, mapFind?, h1', h2', h3', h4', h5', h6'] at h

/-- A token with nonnegative reported precedence is a symbol carrying one of
the six installed operator characters. -/
theorem prec_nonneg_op (t : Tok) (h : 0 ≤ GetTokPrecedencePure t) :
    ∃ c, t = .sym c ∧
      (c = '<' ∨ c = '>' ∨ c = '+' ∨ c = '-' ∨ c = '*' ∨ c = '/') := by
  cases t
  case sym c =>
    refine ⟨c, rfl, mapFind?_InstallBinop_pos c ?_⟩
    simp only [GetTokPrecedencePure] at h
    split_ifs at h <;> omega
  all_goals (simp only [GetTokPrecedencePure] at h; exact absurd h (by decide))

/-- Building a binary node from an installed operator and valid children. -/
theorem opsOK_binary {op : Char} {l r : ExprAST}
    (hop : op = '<' ∨ op = '>' ∨ op = '+' ∨ op = '-' ∨ op = '*' ∨ op = '/')
    (hl : opsOK l = true) (hr : opsOK r = true) :
    opsOK (.BinaryExprAST op l r) = true := by
  rcases hop with h | h | h | h | h | h <;> simp [opsOK, h, hl, hr]

theorem ParseNumberExpr_opsOK (ts : List Tok) (e : ExprAST)
    (h : (ParseNumberExpr ts).val = some e) : opsOK e = true := by
  simp only [ParseNumberExpr] at h
  cases hc : curTok ts <;> simp [hc] at h
  case tok_number v => simp [← h, opsOK]

/-- Every node any parsing function produces satisfies `opsOK`: the
binary-chain loop only consumes operators with positive installed
precedence. -/
theorem parser_ops_in_table : ∀ fuel : Nat,
    (∀ ts e, (ParseExpression fuel ts).val = some e → opsOK e = true) ∧
    (∀ p lhs ts e, 0 ≤ p → opsOK lhs = true →
        (ParseBinOpRHS fuel p lhs ts).val = some e → opsOK e = true) ∧
    (∀ ts e, (ParsePrimary fuel ts).val = some e → opsOK e = true) ∧
    (∀ ts e, (ParseParenExpr fuel ts).val = some e → opsOK e = true) ∧
    (∀ ts e, (ParseIdentifierExpr fuel ts).val = some e → opsOK e = true) ∧
    (∀ idName args ts e, opsOKList args = true →
        (ParseCallArgs fuel idName args ts).val = some e → opsOK e = true) ∧
    (∀ ts e, (ParseIfExpr fuel ts).val = some e → opsOK e = true) ∧
    (∀ ts e, (ParseForExpr fuel ts).val = some e → opsOK e = true) := by
  intro fuel
  induction fuel with
  | zero =>
    exact ⟨fun ts e h => by simp [ParseExpression] at h,
      fun p lhs ts e _ _ h => by simp [ParseBinOpRHS] at h,
      fun ts e h => by simp [ParsePrimary] at h,
      fun ts e h => by simp [ParseParenExpr] at h,
      fun ts e h => by simp [ParseIdentifierExpr] at h,
      fun idName args ts e _ h => by simp [ParseCallArgs] at h,
      fun ts e h => by simp [ParseIfExpr] at h,
      fun ts e h => by simp [ParseForExpr] at h⟩
  | succ f ih =>
    obtain ⟨ihE, ihB, ihP, ihPar, ihId, ihArgs, ihIf, ihFor⟩ := ih
    refine ⟨?_, ?_, ?_, ?_, ?_, ?_, ?_, ?_⟩
    -- ParseExpression
    · intro ts e h
      simp only [ParseExpression] at h
      rcases hp : (ParsePrimary f ts).val with _ | lhs
      · simp [hp] at h
      · simp only [hp] at h
        exact ihB 0 lhs _ e le_rfl (ihP ts lhs hp) h
    -- ParseBinOpRHS
    · intro p lhs ts e hp hlhs h
      simp only [ParseBinOpRHS] at h
      by_cases hlt : GetTokPrecedencePure (curTok ts) < p
      · rw [if_pos hlt] at h
        simp only [Option.some.injEq] at h
        exact h ▸ hlhs
      · rw [if_neg hlt] at h
        have h0 : 0 ≤ GetTokPrecedencePure (curTok ts) :=
          le_trans hp (not_lt.mp hlt)
        obtain ⟨c, hcur, hcs⟩ := prec_nonneg_op _ h0
        have hbo : curTokOp ts = c := by simp [curTokOp, hcur]
        have hopc : curTokOp ts = '<' ∨ curTokOp ts = '>' ∨ curTokOp ts = '+' ∨
            curTokOp ts = '-' ∨ curTokOp ts = '*' ∨ curTokOp ts = '/' := by
          rw [hbo]; exact hcs
        rcases hr : (ParsePrimary f (advance ts)).val with _ | rhs
        · simp [hr] at h
        · simp only [hr] at h
          have hrhs : opsOK rhs = true := ihP _ _ hr
          by_cases hn : GetTokPrecedencePure (curTok ts) <
              GetTokPrecedencePure (curTok (ParsePrimary f (advance ts)).rem)
          · rw [if_pos hn] at h
            rcases hr2 : (ParseBinOpRHS f (GetTokPrecedencePure (curTok ts) + 1) rhs
                (ParsePrimary f (advance ts)).rem).val with _ | rhs2
            · simp [hr2] at h
            · simp only [hr2] at h
              have hrhs2 : opsOK rhs2 = true :=
                ihB _ rhs _ rhs2 (by omega) hrhs hr2
              exact ihB p _ _ e hp (opsOK_binary hopc hlhs hrhs2) h
          · rw [if_neg hn] at h
            exact ihB p _ _ e hp (opsOK_binary hopc hlhs hrhs) h
    -- ParsePrimary
    · intro ts e h
      simp only [ParsePrimary] at h
      cases hc : curTok ts
      case tok_identifier name =>
        simp only [hc] at h; exact ihId ts e h
      case tok_number v =>
        simp only [hc] at h; exact ParseNumberExpr_opsOK ts e h
      case tok_if =>
        simp only [hc] at h; exact ihIf ts e h
      case tok_for =>
        simp only [hc] at h; exact ihFor ts e h
      case sym c =>
        simp only [hc] at h
        by_cases hpar : c = '('
        · rw [if_pos hpar] at h; exact ihPar ts e h
        · rw [if_neg hpar] at h; simp at h
      all_goals (simp [hc] at h)
    -- ParseParenExpr
    · intro ts e h
      simp only [ParseParenExpr] at h
      rcases hr : (ParseExpression f (advance ts)).val with _ | v
      · simp [hr] at h
      · simp only [hr] at h
        by_cases hcp : curTok (ParseExpression f (advance ts)).rem = .sym ')'
        · rw [if_pos hcp] at h
          simp only [Option.some.injEq] at h
          exact h ▸ ihE _ _ hr
        · rw [if_neg hcp] at h; simp at h
    -- ParseIdentifierExpr
    · intro ts e h
      simp only [ParseIdentifierExpr] at h
      cases hc : curTok ts
      case tok_identifier idName =>
        simp only [hc] at h
        by_cases h1 : curTok (advance ts) = .sym '('
        · rw [if_pos h1] at h
          by_cases h2 : curTok (advance (advance ts)) = .sym ')'
          · rw [if_pos h2] at h
            simp only [Option.some.injEq] at h
            simp [← h, opsOK, opsOKList]
          · rw [if_neg h2] at h
            exact ihArgs idName [] _ e (by simp [opsOKList]) h
        · rw [if_neg h1] at h
          simp only [Option.some.injEq] at h
          simp [← h, opsOK]
      all_goals (simp [hc] at h)
    -- ParseCallArgs
    · intro idName args ts e hargs h
      simp only [ParseCallArgs] at h
      rcases hr : (ParseExpression f ts).val with _ | arg
      · simp [hr] at h
      · simp only [hr] at h
        have harg : opsOK arg = true := ihE _ _ hr
        have hall : opsOKList (args ++ [arg]) = true := by
          simp [opsOKList_append, hargs, opsOKList, harg]
        by_cases h1 : curTok (ParseExpression f ts).rem = .sym ')'
        · rw [if_pos h1] at h
          simp only [Option.some.injEq] at h
          simp [← h, opsOK, hall]
        · rw [if_neg h1] at h
          by_cases h2 : curTok (ParseExpression f ts).rem = .sym ','
          · rw [if_pos h2] at h
            exact ihArgs idName (args ++ [arg]) _ e hall h
          · rw [if_neg h2] at h; simp at h
    -- ParseIfExpr
    · intro ts e h
      simp only [ParseIfExpr] at h
      rcases h1 : (ParseExpression f (advance ts)).val with _ | cond
      · simp [h1] at h
      · simp only [h1] at h
        by_cases hthen : curTok (ParseExpression f (advance ts)).rem = .tok_then
        · simp only [hthen, ne_eq, not_true_eq_false, if_false] at h
          rcases h2 : (ParseExpression f
              (advance (ParseExpression f (advance ts)).rem)).val with _ | thenE
          · simp [h2] at h
          · simp only [h2] at h
            by_cases helse : curTok (ParseExpression f
                (advance (ParseExpression f (advance ts)).rem)).rem = .tok_else
            · simp only [helse, ne_eq, not_true_eq_false, if_false] at h
              rcases h3 : (ParseExpression f (advance (ParseExpression f
                  (advance (ParseExpression f (advance ts)).rem)).rem)).val with _ | elseE
              · simp [h3] at h
              · simp only [h3, Option.some.injEq] at h
                have := ihE _ _ h1
                have := ihE _ _ h2
                have := ihE _ _ h3
                simp_all [← h, opsOK]
            · simp only [helse, ne_eq, not_false_eq_true, if_true] at h
              simp at h
        · simp only [hthen, ne_eq, not_false_eq_true, if_true] at h
          simp at h
    -- ParseForExpr
    · intro ts e h
      simp only [ParseForExpr] at h
      cases hc : curTok (advance ts)
      case tok_identifier idName =>
        simp only [hc] at h
        by_cases heq : curTok (advance (advance ts)) = .sym '='
        · simp only [heq, ne_eq, not_true_eq_false, if_false] at h
          rcases h1 : (ParseExpression f (advance (advance (advance ts)))).val
            with _ | startE
          · simp [h1] at h
          · simp only [h1] at h
            by_cases hcm : curTok (ParseExpression f
                (advance (advance (advance ts)))).rem = .sym ','
            · simp only [hcm, ne_eq, not_true_eq_false, if_false] at h
              rcases h2 : (ParseExpression f (advance (ParseExpression f
                  (advance (advance (advance ts)))).rem)).val with _ | endE
              · simp [h2] at h
              · simp only [h2] at h
                have hstart : opsOK startE = true := ihE _ _ h1
                have hend : opsOK endE = true := ihE _ _ h2
                set rem2 := (ParseExpression f (advance (ParseExpression f
                    (advance (advance (advance ts)))).rem)).rem with hrem2
                by_cases hcm2 : curTok rem2 = .sym ','
                · simp only [hcm2, if_true] at h
                  rcases h3 : (ParseExpression f (advance rem2)).val with _ | stepE
                  · simp [h3] at h
                  · simp only [h3] at h
                    have hstep : opsOK stepE = true := ihE _ _ h3
                    by_cases hin : curTok (ParseExpression f (advance rem2)).rem = .tok_in
                    · simp only [hin, ne_eq, not_true_eq_false, if_false] at h
                      rcases h4 : (ParseExpression f (advance (ParseExpression f
                          (advance rem2)).rem)).val with _ | body
                      · simp [h4] at h
                      · simp only [h4, Option.some.injEq] at h
                        have hbody : opsOK body = true := ihE _ _ h4
                        simp [← h, opsOK, opsOKOpt, hstart, hend, hstep, hbody]
                    · simp only [hin, ne_eq, not_false_eq_true, if_true] at h
                      simp at h
                · simp only [hcm2, if_false] at h
                  by_cases hin : curTok rem2 = .tok_in
                  · simp only [hin, ne_eq, not_true_eq_false, if_false] at h
                    rcases h4 : (ParseExpression f (advance rem2)).val with _ | body
                    · simp [h4] at h
                    · simp only [h4, Option.some.injEq] at h
                      have hbody : opsOK body = true := ihE _ _ h4
                      simp [← h, opsOK, opsOKOpt, hstart, hend, hbody]
                  · simp only [hin, ne_eq, not_false_eq_true, if_true] at h
                    simp at h
            · simp only [hcm, ne_eq, not_false_eq_true, if_true] at h
              simp at h
        · simp only [heq, ne_eq, not_false_eq_true, if_true] at h
          simp at h
      all_goals (simp [hc] at h)

/-- C10: every `Binary` node in any expression the parser produces carries
one of the six installed operator characters `<`, `>`, `+`, `-`, `*`, `/`
(the binary-chain loop only consumes operators with positive installed
precedence). -/
theorem binary_ops_only_installed (fuel : Nat) (ts rem : List Tok)
    (errs : List String) (e : ExprAST)
    (h : ParseExpression fuel ts = ⟨some e, rem, errs⟩) : opsOK e = true :=
  (parser_ops_in_table fuel).1 ts e (by rw [h])

/-- C10 witness: the operator check on the tree parsed from `"1 + 2 * 3"`. -/
theorem binary_ops_only_installed_witness :
    opsOK (.BinaryExprAST '+' (.NumberExprAST 1)
      (.BinaryExprAST '*' (.NumberExprAST 2) (.NumberExprAST 3))) = true :=
  binary_ops_only_installed 30 (tokenize "1 + 2 * 3") [] []
    (.BinaryExprAST '+' (.NumberExprAST 1)
      (.BinaryExprAST '*' (.NumberExprAST 2) (.NumberExprAST 3))) rfl

end Zlang
